import Mathlib

/-!
Verification of the scheduling core in src/solver.py (class Optimizer).

The solver file builds a 0-1 integer program with PuLP and hands it to an
external engine (CBC); it then extracts a day-by-day schedule from the raw
variable assignment.  We embed the data model, the constraint families, the
objective and the extraction as executable Lean definitions, translated
directly from src/solver.py.  The external Solving Engine is modelled as an
oracle: `optimize` receives the assignment and the status the engine returned;
the engine contract (spec section 4.4) for status Optimal is
`satisfies_constraints`.

Conventions:
* Python dicts preserve insertion order and have unique keys; they are embedded
  as association lists, with key uniqueness (`keys_nodup`) carried as a
  hypothesis where needed.
* The Python field `end` is a Lean keyword; it is embedded as `stop`.
* Binary solver values are embedded as `Bool`; the code thresholds raw values
  at 0.5, which on the 0/1 values of the engine contract is the identity.
* `sorted` in Python is a stable ascending sort.  `List.insertionSort` with a
  non-strict total preorder is also stable and ascending, and a stable sort is
  uniquely determined by its key preorder, so the two agree elementwise.
-/

/-- Embeds the pydantic model `EventInstanceEntry` (src/solver.py, lines 9-14).
The Python field `end` is renamed to `stop` because `end` is a Lean keyword. -/
structure EventInstanceEntry where
  event : Int
  day : Int
  start : Int
  stop : Int
  loc : String
deriving DecidableEq

instance : Inhabited EventInstanceEntry := ⟨⟨0, 0, 0, 0, ""⟩⟩

/-- The `occurrences` dict passed to `Optimizer.__init__`, embedded as an
insertion-ordered association list. -/
abbrev Occurrences := List (String × EventInstanceEntry)

/-- The `travel_distances` dict: (from location, to location) to minutes. -/
abbrev TravelDistances := List ((String × String) × Int)

/-- Dictionary access `self.occurrences[k]`.  Every access in the source uses a
key of the dict, where `lookup` returns the unique binding. -/
def occOf (occs : Occurrences) (k : String) : EventInstanceEntry :=
  (occs.lookup k).getD default

/-- `self.K = list(occurrences.keys())` (src/solver.py, line 35). -/
def keyList (occs : Occurrences) : List String :=
  occs.map Prod.fst

/-- Python key uniqueness of the `occurrences` dict. -/
def keys_nodup (occs : Occurrences) : Prop :=
  (keyList occs).Nodup

/-- `sorted(set(l))` for integer values: deduplicate, then sort ascending. -/
def sortedVals (l : List Int) : List Int :=
  List.insertionSort (fun a b => a ≤ b) l.dedup

/-- `self.events = sorted(set(entry.event for ...))` (src/solver.py, line 36). -/
def events (occs : Occurrences) : List Int :=
  sortedVals (occs.map (fun p => p.2.event))

/-- `self.days = sorted(set(entry.day for ...))` (src/solver.py, line 37). -/
def days (occs : Occurrences) : List Int :=
  sortedVals (occs.map (fun p => p.2.day))

/-- `self.same_day_pairs` (src/solver.py, lines 41-42): ordered pairs of
distinct keys whose occurrences share a day.  `itertools.permutations(K, 2)`
enumerates, for each key in order, every other key in order; with unique keys
this is exactly the flatMap below. -/
def same_day_pairs (occs : Occurrences) : List (String × String) :=
  (keyList occs).flatMap (fun k =>
    ((keyList occs).filter
      (fun m => (occOf occs k).day == (occOf occs m).day && k != m)).map
      (fun m => (k, m)))

/-- `self.H = 60` (src/solver.py, line 32). -/
def minutes_per_hour : Int := 60

/-- `self.M = 24 * self.H` (src/solver.py, line 45). -/
def bigM : Int := 24 * minutes_per_hour

/-- The default of the `buffer_minutes` parameter of `Optimizer.__init__`
(src/solver.py, line 20). -/
def default_buffer_minutes : Int := 60

/-- `Optimizer.__travel_time` (src/solver.py, lines 51-55):
`travel_distances.get((from_loc, to_loc), 0)`. -/
def travel_time (occs : Occurrences) (td : TravelDistances) (k m : String) : Int :=
  (td.lookup ((occOf occs k).loc, (occOf occs m).loc)).getD 0

/-- The raw 0-1 assignment returned by the Solving Engine for the three
variable families `x` (selection), `u` (day active) and `y` (ordering).
Only values at catalogue keys, days and same-day pairs are meaningful. -/
structure Assignment where
  x : String → Bool
  u : Int → Bool
  y : String × String → Bool

/-- Numeric value of a binary variable. -/
def bi (b : Bool) : Int := if b then 1 else 0

/-- Constraint family 1 (src/solver.py, lines 75-76): for each event, the
selection variables of its occurrences sum to one. -/
def coverage_ok (occs : Occurrences) (a : Assignment) : Prop :=
  ∀ i ∈ events occs,
    (((keyList occs).filter (fun k => (occOf occs k).event == i)).map
      (fun k => bi (a.x k))).sum = 1

/-- Constraint family 2 (src/solver.py, lines 79-82): `x[k] <= u[d]` for every
day `d` and occurrence `k` on that day. -/
def day_link_ok (occs : Occurrences) (a : Assignment) : Prop :=
  ∀ d ∈ days occs, ∀ k ∈ keyList occs,
    (occOf occs k).day = d → bi (a.x k) ≤ bi (a.u d)

/-- Constraint family 3 (src/solver.py, lines 85-88): `y[(k,m)] <= x[k]` and
`y[(k,m)] <= x[m]` for every same-day pair. -/
def pair_link_ok (occs : Occurrences) (a : Assignment) : Prop :=
  ∀ p ∈ same_day_pairs occs,
    bi (a.y p) ≤ bi (a.x p.1) ∧ bi (a.y p) ≤ bi (a.x p.2)

/-- Lexicographic (code-point) comparison of character lists, the order Python
uses on strings. -/
def str_lt_aux : List Char → List Char → Bool
  | [], [] => false
  | [], _ :: _ => true
  | _ :: _, [] => false
  | c :: cs, d :: ds => if c < d then true else if d < c then false else str_lt_aux cs ds

/-- Python string comparison `a < b`: lexicographic on the character data. -/
def str_lt (s t : String) : Bool :=
  str_lt_aux s.data t.data

/-- The canonical pairs of src/solver.py, line 91: same-day pairs whose first
key is lexicographically smaller (the `a < b` filter; the day test there is
redundant since `same_day_pairs` already shares days). -/
def canonical_pairs (occs : Occurrences) : List (String × String) :=
  (same_day_pairs occs).filter (fun p => str_lt p.1 p.2)

/-- Constraint family 4 (src/solver.py, lines 91-93), generated only for
canonical pairs: at least one direction when both chosen, at most one overall. -/
def direction_ok (occs : Occurrences) (a : Assignment) : Prop :=
  ∀ p ∈ canonical_pairs occs,
    bi (a.x p.1) + bi (a.x p.2) - 1 ≤ bi (a.y (p.1, p.2)) + bi (a.y (p.2, p.1)) ∧
    bi (a.y (p.1, p.2)) + bi (a.y (p.2, p.1)) ≤ 1

/-- Constraint family 5 (src/solver.py, lines 96-98): big-M relaxed time
feasibility for every same-day pair. -/
def time_feasible_ok (occs : Occurrences) (td : TravelDistances) (buf : Int)
    (a : Assignment) : Prop :=
  ∀ p ∈ same_day_pairs occs,
    (occOf occs p.2).start ≥
      (occOf occs p.1).stop + travel_time occs td p.1 p.2 + buf
        - bigM * (1 - bi (a.y p))

/-- The complete constraint set of the model built in `Optimizer.optimize`
(src/solver.py, lines 67-98).  This is the Solving Engine contract for an
assignment reported Optimal (spec section 4.4). -/
def satisfies_constraints (occs : Occurrences) (td : TravelDistances)
    (buf : Int) (a : Assignment) : Prop :=
  coverage_ok occs a ∧ day_link_ok occs a ∧ pair_link_ok occs a ∧
    direction_ok occs a ∧ time_feasible_ok occs td buf a

/-- The data-model conditions of spec section 3: every occurrence has
`end > start`, travel entries are non-negative, and the buffer is
non-negative. -/
def well_formed (occs : Occurrences) (td : TravelDistances) (buf : Int) : Prop :=
  (∀ p ∈ occs, p.2.start < p.2.stop) ∧ (∀ q ∈ td, 0 ≤ q.2) ∧ 0 ≤ buf

instance (occs : Occurrences) (a : Assignment) : Decidable (coverage_ok occs a) :=
  List.decidableBAll _ _

instance (occs : Occurrences) (a : Assignment) : Decidable (day_link_ok occs a) :=
  List.decidableBAll _ _

instance (occs : Occurrences) (a : Assignment) : Decidable (pair_link_ok occs a) :=
  List.decidableBAll _ _

instance (occs : Occurrences) (a : Assignment) : Decidable (direction_ok occs a) :=
  List.decidableBAll _ _

instance (occs : Occurrences) (td : TravelDistances) (buf : Int) (a : Assignment) :
    Decidable (time_feasible_ok occs td buf a) :=
  List.decidableBAll _ _

instance (occs : Occurrences) (td : TravelDistances) (buf : Int) (a : Assignment) :
    Decidable (satisfies_constraints occs td buf a) :=
  inferInstanceAs (Decidable (_ ∧ _ ∧ _ ∧ _ ∧ _))

instance (occs : Occurrences) : Decidable (keys_nodup occs) :=
  List.nodupDecidable _

instance (occs : Occurrences) (td : TravelDistances) (buf : Int) :
    Decidable (well_formed occs td buf) :=
  inferInstanceAs (Decidable (_ ∧ _ ∧ _))

/-- The objective (src/solver.py, lines 101-114):
`W1 * sum(u) + W2 * gap_cost + W3 * travel_cost` with weights
1000000, 1000, 1. -/
def objective (occs : Occurrences) (td : TravelDistances) (a : Assignment) : Int :=
  1000000 * (((days occs).map (fun d => bi (a.u d))).sum)
    + 1000 * (((same_day_pairs occs).map
        (fun p => bi (a.y p) * ((occOf occs p.2).start - (occOf occs p.1).stop))).sum)
    + 1 * (((same_day_pairs occs).map
        (fun p => bi (a.y p) * travel_time occs td p.1 p.2)).sum)

/-- `chosen = [k for k in K if value(x[k]) > 0.5]` (src/solver.py, line 120). -/
def chosen (occs : Occurrences) (a : Assignment) : List String :=
  (keyList occs).filter (fun k => a.x k)

/-- `todays = [k for k in chosen if occurrences[k].day == d]`
(src/solver.py, line 124). -/
def todays (occs : Occurrences) (a : Assignment) (d : Int) : List String :=
  (chosen occs a).filter (fun k => (occOf occs k).day == d)

/-- `before_count` (src/solver.py, lines 126-129): for each key of `todays`,
the number of other keys of `todays` whose ordering variable towards it is
active.  The test `(k, m) in y` is membership of the key set of the `y` dict,
which is `same_day_pairs`. -/
def before_count (occs : Occurrences) (a : Assignment) (d : Int) (kk : String) : Nat :=
  ((todays occs a d).filter (fun k =>
    k != kk && decide ((k, kk) ∈ same_day_pairs occs) && a.y (k, kk))).length

/-- `ordered = sorted(todays, key=lambda kk: before_count[kk])`
(src/solver.py, line 130).  Python sorted is stable ascending; so is
`insertionSort` over the non-strict preorder on counts, and stable sorts
agree, so this is the same list. -/
def ordered (occs : Occurrences) (a : Assignment) (d : Int) : List String :=
  List.insertionSort
    (fun k1 k2 => before_count occs a d k1 ≤ before_count occs a d k2)
    (todays occs a d)

/-- The `schedule` dict (src/solver.py, lines 121-132): iterating days in
sorted order, a day is added exactly when its ordered list is non-empty. -/
def schedule (occs : Occurrences) (a : Assignment) : List (Int × List String) :=
  (days occs).filterMap (fun d =>
    if (ordered occs a d).isEmpty then none else some (d, ordered occs a d))

/-- `days_used = sum(int(value(u[d]) > 0.5) for d in days)`
(src/solver.py, line 134). -/
def days_used (occs : Occurrences) (a : Assignment) : Nat :=
  ((days occs).map (fun d => if a.u d then 1 else 0)).sum

/-- `pulp.LpStatus` values surfaced by the code (spec section 4.4). -/
inductive SolverStatus where
  | Optimal | Infeasible | Unbounded | NotSolved | Undefined
deriving DecidableEq

/-- The dictionary returned by `Optimizer.optimize` (src/solver.py,
lines 136-141). -/
structure OptimizeResult where
  schedule : List (Int × List String)
  days_used : Nat
  chosen_occurrences : List String
  status : SolverStatus
deriving DecidableEq

/-- `Optimizer.optimize` (src/solver.py, lines 57-141) after the delegated
solve: the model building is captured by `satisfies_constraints` and
`objective`; the external engine is an oracle whose returned assignment `a`
and status `st` are parameters.  Extraction runs on the raw values no matter
the status, exactly as in the source. -/
def optimize (occs : Occurrences) (td : TravelDistances) (buf : Int)
    (a : Assignment) (st : SolverStatus) : OptimizeResult :=
  ⟨schedule occs a, days_used occs a, chosen occs a, st⟩

-- Unused model parameters mirror the source: `td` and `buf` enter only the
-- constraint set and objective, not the extraction.
theorem optimize_def (occs : Occurrences) (td : TravelDistances) (buf : Int)
    (a : Assignment) (st : SolverStatus) :
    optimize occs td buf a st =
      ⟨schedule occs a, days_used occs a, chosen occs a, st⟩ := rfl

/-! ### Basic facts about the embedded data accessors -/

theorem lookup_mem {α β : Type} [BEq α] [LawfulBEq α] {l : List (α × β)} {k : α}
    {v : β} (h : l.lookup k = some v) : (k, v) ∈ l := by
  induction l with
  | nil => simp [List.lookup] at h
  | cons p t ih =>
    obtain ⟨a, b⟩ := p
    rw [List.lookup] at h
    by_cases hk : k == a
    · simp only [hk] at h
      have hv : b = v := by simpa using h
      have hk2 : k = a := by simpa using hk
      subst hv; subst hk2
      exact List.mem_cons_self _ _
    · simp only [hk] at h
      exact List.mem_cons_of_mem _ (ih h)

theorem mem_keyList_occOf {occs : Occurrences} {k : String}
    (h : k ∈ keyList occs) : (k, occOf occs k) ∈ occs := by
  have hs : ∃ v, occs.lookup k = some v := by
    induction occs with
    | nil => simp [keyList] at h
    | cons p t ih =>
      rw [keyList, List.map_cons, List.mem_cons] at h
      by_cases hk : k == p.1
      · exact ⟨p.2, by simp [List.lookup, hk]⟩
      · rcases h with h | h
        · exact absurd (by simp [h]) hk
        · rcases ih h with ⟨v, hv⟩
          exact ⟨v, by simp [List.lookup, hk, hv]⟩
  rcases hs with ⟨v, hv⟩
  have : occOf occs k = v := by simp [occOf, hv]
  rw [this]
  exact lookup_mem hv

theorem mem_sortedVals {l : List Int} {x : Int} : x ∈ sortedVals l ↔ x ∈ l := by
  unfold sortedVals
  rw [(List.perm_insertionSort _ _).mem_iff]
  exact List.mem_dedup

theorem sortedVals_nodup (l : List Int) : (sortedVals l).Nodup := by
  unfold sortedVals
  exact (List.perm_insertionSort _ _).nodup_iff.mpr l.nodup_dedup

theorem day_mem_days {occs : Occurrences} {k : String} (h : k ∈ keyList occs) :
    (occOf occs k).day ∈ days occs := by
  rw [days, mem_sortedVals]
  exact List.mem_map_of_mem _ (mem_keyList_occOf h)

theorem event_mem_events {occs : Occurrences} {k : String} (h : k ∈ keyList occs) :
    (occOf occs k).event ∈ events occs := by
  rw [events, mem_sortedVals]
  exact List.mem_map_of_mem _ (mem_keyList_occOf h)

theorem mem_same_day_pairs {occs : Occurrences} {k m : String} :
    (k, m) ∈ same_day_pairs occs ↔
      k ∈ keyList occs ∧ m ∈ keyList occs ∧
        (occOf occs k).day = (occOf occs m).day ∧ k ≠ m := by
  unfold same_day_pairs
  simp only [List.mem_flatMap, List.mem_map, List.mem_filter, Bool.and_eq_true,
    beq_iff_eq, bne_iff_ne, ne_eq, Prod.mk.injEq]
  constructor
  · rintro ⟨k', hk', m', ⟨hm', hday, hne⟩, hkk, hmm⟩
    subst hkk; subst hmm
    exact ⟨hk', hm', hday, hne⟩
  · rintro ⟨hk, hm, hday, hne⟩
    exact ⟨k, hk, m, ⟨hm, hday, hne⟩, rfl, rfl⟩

theorem same_day_pairs_symm {occs : Occurrences} {k m : String}
    (h : (k, m) ∈ same_day_pairs occs) : (m, k) ∈ same_day_pairs occs := by
  rw [mem_same_day_pairs] at h ⊢
  exact ⟨h.2.1, h.1, h.2.2.1.symm, h.2.2.2.symm⟩

theorem mem_canonical_pairs {occs : Occurrences} {k m : String} :
    (k, m) ∈ canonical_pairs occs ↔
      (k, m) ∈ same_day_pairs occs ∧ str_lt k m = true := by
  unfold canonical_pairs
  simp [List.mem_filter]

theorem str_lt_aux_antisymm : ∀ {l1 l2 : List Char},
    str_lt_aux l1 l2 = false → str_lt_aux l2 l1 = false → l1 = l2 := by
  intro l1
  induction l1 with
  | nil =>
    intro l2 h12 _
    cases l2 with
    | nil => rfl
    | cons d ds => simp [str_lt_aux] at h12
  | cons c cs ih =>
    intro l2 h12 h21
    cases l2 with
    | nil => simp [str_lt_aux] at h21
    | cons d ds =>
      rw [str_lt_aux] at h12 h21
      by_cases hcd : c < d
      · simp [hcd] at h12
      · by_cases hdc : d < c
        · simp [hdc, hcd] at h21
        · have hce : c = d := le_antisymm (not_lt.mp hdc) (not_lt.mp hcd)
          subst hce
          simp only [lt_irrefl, if_neg, ite_false] at h12 h21
          rw [ih h12 h21]

theorem str_lt_total_of_ne {s t : String} (h : s ≠ t) :
    str_lt s t = true ∨ str_lt t s = true := by
  by_contra hc
  push_neg at hc
  rcases hc with ⟨h1, h2⟩
  simp only [ne_eq, Bool.not_eq_true] at h1 h2
  have hd : s.data = t.data := str_lt_aux_antisymm h1 h2
  exact h (congrArg String.mk hd)

/-! ### Facts about the extraction -/

theorem mem_chosen {occs : Occurrences} {a : Assignment} {k : String} :
    k ∈ chosen occs a ↔ k ∈ keyList occs ∧ a.x k = true := by
  unfold chosen
  simp [List.mem_filter]

theorem mem_todays {occs : Occurrences} {a : Assignment} {d : Int} {k : String} :
    k ∈ todays occs a d ↔
      k ∈ keyList occs ∧ a.x k = true ∧ (occOf occs k).day = d := by
  unfold todays
  simp [List.mem_filter, mem_chosen, and_assoc]

theorem todays_nodup {occs : Occurrences} (hnd : keys_nodup occs)
    (a : Assignment) (d : Int) : (todays occs a d).Nodup :=
  ((hnd.filter _).filter _)

theorem ordered_perm_todays (occs : Occurrences) (a : Assignment) (d : Int) :
    List.Perm (ordered occs a d) (todays occs a d) :=
  List.perm_insertionSort _ _

theorem mem_ordered {occs : Occurrences} {a : Assignment} {d : Int} {k : String} :
    k ∈ ordered occs a d ↔ k ∈ todays occs a d :=
  (ordered_perm_todays occs a d).mem_iff

theorem ordered_nodup {occs : Occurrences} (hnd : keys_nodup occs)
    (a : Assignment) (d : Int) : (ordered occs a d).Nodup :=
  (ordered_perm_todays occs a d).nodup_iff.mpr (todays_nodup hnd a d)

theorem mem_schedule {occs : Occurrences} {a : Assignment} {d : Int}
    {l : List String} :
    (d, l) ∈ schedule occs a ↔
      d ∈ days occs ∧ ordered occs a d ≠ [] ∧ l = ordered occs a d := by
  unfold schedule
  rw [List.mem_filterMap]
  constructor
  · rintro ⟨d', hd', hsome⟩
    by_cases he : (ordered occs a d').isEmpty
    · simp [he] at hsome
    · rw [if_neg he] at hsome
      cases hsome
      exact ⟨hd', by simpa [List.isEmpty_iff] using he, rfl⟩
  · rintro ⟨hd, hne, rfl⟩
    refine ⟨d, hd, ?_⟩
    rw [if_neg (by simpa [List.isEmpty_iff] using hne)]

/-! ### Numeric facts about binary values -/

theorem bi_nonneg (b : Bool) : 0 ≤ bi b := by cases b <;> simp [bi]

theorem bi_le_one (b : Bool) : bi b ≤ 1 := by cases b <;> simp [bi]

theorem bi_true : bi true = 1 := rfl

theorem bi_false : bi false = 0 := rfl

theorem bi_eq_one_of_le {b c : Bool} (hb : b = true) (h : bi b ≤ bi c) :
    c = true := by
  subst hb
  cases c
  · simp [bi] at h
  · rfl

/-! ### Consequences of the constraint set -/

theorem x_imp_u {occs : Occurrences} {td : TravelDistances} {buf : Int}
    {a : Assignment} (hs : satisfies_constraints occs td buf a) {k : String}
    (hk : k ∈ keyList occs) (hx : a.x k = true) :
    a.u ((occOf occs k).day) = true :=
  bi_eq_one_of_le hx
    (hs.2.1 _ (day_mem_days hk) k hk rfl)

theorem y_imp_x {occs : Occurrences} {td : TravelDistances} {buf : Int}
    {a : Assignment} (hs : satisfies_constraints occs td buf a)
    {k m : String} (hp : (k, m) ∈ same_day_pairs occs) (hy : a.y (k, m) = true) :
    a.x k = true ∧ a.x m = true :=
  ⟨bi_eq_one_of_le hy (hs.2.2.1 _ hp).1, bi_eq_one_of_le hy (hs.2.2.1 _ hp).2⟩

theorem y_exactly_one {occs : Occurrences} {td : TravelDistances} {buf : Int}
    {a : Assignment} (hs : satisfies_constraints occs td buf a)
    {k m : String} (hp : (k, m) ∈ same_day_pairs occs)
    (hxk : a.x k = true) (hxm : a.x m = true) :
    (a.y (k, m) = true ∧ a.y (m, k) = false) ∨
      (a.y (k, m) = false ∧ a.y (m, k) = true) := by
  have hne : k ≠ m := (mem_same_day_pairs.mp hp).2.2.2
  rcases str_lt_total_of_ne hne with hlt | hlt
  · have hc : (k, m) ∈ canonical_pairs occs := mem_canonical_pairs.mpr ⟨hp, hlt⟩
    have h := hs.2.2.2.1 _ hc
    rw [hxk, hxm] at h
    revert h
    cases hkm : a.y (k, m) <;> cases hmk : a.y (m, k) <;> simp [bi]
  · have hc : (m, k) ∈ canonical_pairs occs :=
      mem_canonical_pairs.mpr ⟨same_day_pairs_symm hp, hlt⟩
    have h := hs.2.2.2.1 _ hc
    rw [hxk, hxm] at h
    revert h
    cases hkm : a.y (k, m) <;> cases hmk : a.y (m, k) <;> simp [bi]

theorem y_not_both {occs : Occurrences} {td : TravelDistances} {buf : Int}
    {a : Assignment} (hs : satisfies_constraints occs td buf a)
    {k m : String} (hp : (k, m) ∈ same_day_pairs occs) :
    ¬ (a.y (k, m) = true ∧ a.y (m, k) = true) := by
  rintro ⟨h1, h2⟩
  have hx := y_imp_x hs hp h1
  rcases y_exactly_one hs hp hx.1 hx.2 with ⟨_, hf⟩ | ⟨hf, _⟩
  · rw [hf] at h2
    exact Bool.false_ne_true h2
  · rw [hf] at h1
    exact Bool.false_ne_true h1

theorem time_of_y {occs : Occurrences} {td : TravelDistances} {buf : Int}
    {a : Assignment} (hs : satisfies_constraints occs td buf a)
    {k m : String} (hp : (k, m) ∈ same_day_pairs occs) (hy : a.y (k, m) = true) :
    (occOf occs m).start ≥
      (occOf occs k).stop + travel_time occs td k m + buf := by
  have h := hs.2.2.2.2 _ hp
  rw [hy] at h
  simpa [bi] using h

theorem travel_time_nonneg {occs : Occurrences} {td : TravelDistances}
    (htd : ∀ q ∈ td, 0 ≤ q.2) (k m : String) :
    0 ≤ travel_time occs td k m := by
  unfold travel_time
  cases hl : td.lookup ((occOf occs k).loc, (occOf occs m).loc) with
  | none => simp
  | some v =>
    have := htd _ (lookup_mem hl)
    simpa using this

theorem stop_gt_start {occs : Occurrences} (hwf : ∀ p ∈ occs, p.2.start < p.2.stop)
    {k : String} (hk : k ∈ keyList occs) :
    (occOf occs k).start < (occOf occs k).stop :=
  hwf _ (mem_keyList_occOf hk)

theorem start_lt_of_y {occs : Occurrences} {td : TravelDistances} {buf : Int}
    {a : Assignment} (hwf : well_formed occs td buf)
    (hs : satisfies_constraints occs td buf a)
    {k m : String} (hp : (k, m) ∈ same_day_pairs occs) (hy : a.y (k, m) = true) :
    (occOf occs k).start < (occOf occs m).start := by
  have h1 := time_of_y hs hp hy
  have h2 := stop_gt_start hwf.1 (mem_same_day_pairs.mp hp).1
  have h3 := @travel_time_nonneg occs td hwf.2.1 k m
  have h4 := hwf.2.2
  omega

/-! ### The per-day order derived from the ordering variables -/

theorem countP_lt_of_witness {α : Type} {l : List α} {p q : α → Bool}
    (himp : ∀ x ∈ l, p x = true → q x = true) {k : α} (hk : k ∈ l)
    (hpk : p k = false) (hqk : q k = true) : l.countP p < l.countP q := by
  induction l with
  | nil => cases hk
  | cons a t ih =>
    rw [List.countP_cons, List.countP_cons]
    rcases List.mem_cons.mp hk with rfl | hkt
    · have hle : t.countP p ≤ t.countP q :=
        List.countP_mono_left (fun x hx => himp x (List.mem_cons_of_mem _ hx))
      rw [hpk, hqk]
      show t.countP p + 0 < t.countP q + 1
      omega
    · have hlt : t.countP p < t.countP q :=
        ih (fun x hx => himp x (List.mem_cons_of_mem _ hx)) hkt
      have hhead : (if p a = true then 1 else 0) ≤ (if q a = true then 1 else 0) := by
        by_cases hpa : p a = true
        · rw [hpa, himp a (List.mem_cons_self _ _) hpa]
        · rw [Bool.not_eq_true] at hpa
          rw [hpa]
          exact Nat.zero_le _
      omega

theorem before_count_eq_countP (occs : Occurrences) (a : Assignment) (d : Int)
    (kk : String) :
    before_count occs a d kk =
      (todays occs a d).countP (fun k =>
        k != kk && decide ((k, kk) ∈ same_day_pairs occs) && a.y (k, kk)) :=
  (List.countP_eq_length_filter _ _).symm

theorem before_pred_iff {occs : Occurrences} {a : Assignment} {kk k : String} :
    (k != kk && decide ((k, kk) ∈ same_day_pairs occs) && a.y (k, kk)) = true ↔
      k ≠ kk ∧ (k, kk) ∈ same_day_pairs occs ∧ a.y (k, kk) = true := by
  simp [Bool.and_eq_true, bne_iff_ne, and_assoc]

theorem before_count_lt_of_y {occs : Occurrences} {td : TravelDistances}
    {buf : Int} {a : Assignment} (hwf : well_formed occs td buf)
    (hs : satisfies_constraints occs td buf a) {d : Int} {k m : String}
    (hk : k ∈ todays occs a d) (hm : m ∈ todays occs a d)
    (hp : (k, m) ∈ same_day_pairs occs) (hy : a.y (k, m) = true) :
    before_count occs a d k < before_count occs a d m := by
  rw [before_count_eq_countP, before_count_eq_countP]
  have hmK := mem_todays.mp hm
  apply countP_lt_of_witness (k := k) ?_ hk ?_ ?_
  · intro w hw hPw
    obtain ⟨hwk, hwp, hwy⟩ := before_pred_iff.mp hPw
    have hwK := mem_todays.mp hw
    have hwm : w ≠ m := by
      rintro rfl
      exact y_not_both hs hp ⟨hy, hwy⟩
    have hwmp : (w, m) ∈ same_day_pairs occs := by
      rw [mem_same_day_pairs]
      exact ⟨hwK.1, hmK.1, by rw [hwK.2.2, hmK.2.2], hwm⟩
    apply before_pred_iff.mpr
    refine ⟨hwm, hwmp, ?_⟩
    rcases y_exactly_one hs hwmp hwK.2.1 hmK.2.1 with ⟨h, _⟩ | ⟨_, hmw⟩
    · exact h
    · exfalso
      have h1 : (occOf occs m).start < (occOf occs w).start :=
        start_lt_of_y hwf hs (same_day_pairs_symm hwmp) hmw
      have h2 : (occOf occs w).start < (occOf occs k).start :=
        start_lt_of_y hwf hs hwp hwy
      have h3 : (occOf occs k).start < (occOf occs m).start :=
        start_lt_of_y hwf hs hp hy
      omega
  · have : (k != k) = false := by simp
    simp [this]
  · apply before_pred_iff.mpr
    exact ⟨(mem_same_day_pairs.mp hp).2.2.2, hp, hy⟩

theorem ordered_sorted (occs : Occurrences) (a : Assignment) (d : Int) :
    (ordered occs a d).Pairwise
      (fun k1 k2 => before_count occs a d k1 ≤ before_count occs a d k2) := by
  haveI ht : IsTotal String
      (fun k1 k2 => before_count occs a d k1 ≤ before_count occs a d k2) :=
    ⟨fun _ _ => Nat.le_total _ _⟩
  haveI htr : IsTrans String
      (fun k1 k2 => before_count occs a d k1 ≤ before_count occs a d k2) :=
    ⟨fun _ _ _ h1 h2 => Nat.le_trans h1 h2⟩
  exact List.sorted_insertionSort _ _

/-- Core ordering fact: in any per-day extracted list, for positions i before j
the ordering variable from the element at i to the element at j is active,
provided the assignment satisfies the constraints and the data is well formed
with unique keys. -/
theorem ordered_pairwise_y {occs : Occurrences} {td : TravelDistances}
    {buf : Int} {a : Assignment} (hnd : keys_nodup occs)
    (hwf : well_formed occs td buf)
    (hs : satisfies_constraints occs td buf a) (d : Int)
    (i j : Fin (ordered occs a d).length) (hij : i < j) :
    ((ordered occs a d).get i, (ordered occs a d).get j) ∈ same_day_pairs occs ∧
      a.y ((ordered occs a d).get i, (ordered occs a d).get j) = true := by
  have hndl : (ordered occs a d).Nodup := ordered_nodup hnd a d
  have hne : (ordered occs a d).get i ≠ (ordered occs a d).get j := by
    intro h
    exact absurd (List.nodup_iff_injective_get.mp hndl h) (Fin.ne_of_lt hij)
  have hu : (ordered occs a d).get i ∈ todays occs a d :=
    mem_ordered.mp (List.get_mem _ _ _)
  have hv : (ordered occs a d).get j ∈ todays occs a d :=
    mem_ordered.mp (List.get_mem _ _ _)
  have huK := mem_todays.mp hu
  have hvK := mem_todays.mp hv
  have hpair : ((ordered occs a d).get i, (ordered occs a d).get j) ∈
      same_day_pairs occs := by
    rw [mem_same_day_pairs]
    exact ⟨huK.1, hvK.1, by rw [huK.2.2, hvK.2.2], hne⟩
  refine ⟨hpair, ?_⟩
  rcases y_exactly_one hs hpair huK.2.1 hvK.2.1 with ⟨h, _⟩ | ⟨_, hvu⟩
  · exact h
  · exfalso
    have hlt : before_count occs a d ((ordered occs a d).get j) <
        before_count occs a d ((ordered occs a d).get i) :=
      before_count_lt_of_y hwf hs hv hu (same_day_pairs_symm hpair) hvu
    have hle := List.pairwise_iff_get.mp (ordered_sorted occs a d) i j hij
    omega

/-! ### Claim theorems -/

/-- C1: For every catalogue (unique keys and the spec section 3 data model:
end > start, non-negative travel entries, non-negative buffer), travel matrix
and buffer, and for every Optimal result of optimize — an assignment honouring
the Solving Engine contract, i.e. satisfying the model constraints — for every
day and every two chosen occurrences on that day, the later one starts at
least at the end of the earlier one plus travel time plus buffer, in the order of
the extracted per-day list. -/
theorem optimal_schedule_respects_gaps
    (occs : Occurrences) (td : TravelDistances) (buf : Int) (a : Assignment)
    (hnd : keys_nodup occs) (hwf : well_formed occs td buf)
    (hs : satisfies_constraints occs td buf a) :
    ∀ d l, (d, l) ∈ (optimize occs td buf a SolverStatus.Optimal).schedule →
      ∀ (i j : Fin l.length), i < j →
        (occOf occs (l.get j)).start ≥
          (occOf occs (l.get i)).stop +
            travel_time occs td (l.get i) (l.get j) + buf := by
  intro d l hmem i j hij
  have hm : (d, l) ∈ schedule occs a := hmem
  have hl : l = ordered occs a d := (mem_schedule.mp hm).2.2
  subst hl
  obtain ⟨hp, hy⟩ := ordered_pairwise_y hnd hwf hs d i j hij
  exact time_of_y hs hp hy

def ex_occs : Occurrences :=
  [("A", ⟨1, 0, 540, 600, "X"⟩), ("B", ⟨2, 0, 700, 760, "Y"⟩)]

def ex_td : TravelDistances := [(("X", "Y"), 25), (("Y", "X"), 25)]

def ex_a : Assignment :=
  ⟨fun _ => true, fun d => d == 0, fun p => p == ("A", "B")⟩

/-- Witness for C1 at a concrete catalogue with two same-day occurrences. -/
theorem optimal_schedule_respects_gaps_witness :
    (occOf ex_occs ((["A", "B"] : List String).get ⟨1, by decide⟩)).start ≥
      (occOf ex_occs ((["A", "B"] : List String).get ⟨0, by decide⟩)).stop +
        travel_time ex_occs ex_td ((["A", "B"] : List String).get ⟨0, by decide⟩)
          ((["A", "B"] : List String).get ⟨1, by decide⟩) + 60 :=
  optimal_schedule_respects_gaps ex_occs ex_td 60 ex_a (by decide) (by decide)
    (by decide) 0 ["A", "B"] (by decide) ⟨0, by decide⟩ ⟨1, by decide⟩
    (by decide)

theorem sum_map_bi {α : Type} (l : List α) (p : α → Bool) :
    (l.map (fun k => bi (p k))).sum = (l.countP p : Int) := by
  induction l with
  | nil => simp
  | cons a t ih =>
    rw [List.map_cons, List.sum_cons, ih, List.countP_cons]
    cases hpa : p a
    · simp [bi, hpa]
    · simp [bi, hpa]
      omega

/-- C2: For every catalogue and every Optimal result of optimize (assignment
satisfying the model constraints, per the engine contract), every event id of
the catalogue has exactly one occurrence in the returned chosen_occurrences
list. -/
theorem optimal_chosen_one_per_event
    (occs : Occurrences) (td : TravelDistances) (buf : Int) (a : Assignment)
    (hs : satisfies_constraints occs td buf a) :
    ∀ i ∈ events occs,
      ((optimize occs td buf a SolverStatus.Optimal).chosen_occurrences.countP
        (fun k => (occOf occs k).event == i)) = 1 := by
  intro i hi
  have hcov := hs.1 i hi
  rw [sum_map_bi] at hcov
  have hcovN : ((keyList occs).filter
      (fun k => (occOf occs k).event == i)).countP (fun k => a.x k) = 1 := by
    exact_mod_cast hcov
  show (chosen occs a).countP (fun k => (occOf occs k).event == i) = 1
  unfold chosen
  rw [List.countP_filter]
  rw [List.countP_filter] at hcovN
  rw [← hcovN]
  apply List.countP_congr
  intro k _
  constructor
  · intro h
    rcases Bool.and_eq_true_iff.mp h with ⟨h1, h2⟩
    exact Bool.and_eq_true_iff.mpr ⟨h2, h1⟩
  · intro h
    rcases Bool.and_eq_true_iff.mp h with ⟨h1, h2⟩
    exact Bool.and_eq_true_iff.mpr ⟨h2, h1⟩

/-- Witness for C2 at a concrete two-event catalogue. -/
theorem optimal_chosen_one_per_event_witness :
    ((optimize ex_occs ex_td 60 ex_a SolverStatus.Optimal).chosen_occurrences.countP
      (fun k => (occOf ex_occs k).event == 1)) = 1 :=
  optimal_chosen_one_per_event ex_occs ex_td 60 ex_a (by decide) 1 (by decide)

/-- C8: For every assignment satisfying the model constraints: the same-day
pair set is symmetric; the canonical pairs are exactly the same-day pairs with
lexicographically smaller first key; if both members of a same-day pair are
chosen exactly one ordering direction is active; and at most one direction is
ever active. -/
theorem ordering_direction_discipline
    (occs : Occurrences) (td : TravelDistances) (buf : Int) (a : Assignment)
    (hs : satisfies_constraints occs td buf a) :
    (∀ k m : String, (k, m) ∈ same_day_pairs occs →
        (m, k) ∈ same_day_pairs occs) ∧
    (∀ k m : String, (k, m) ∈ canonical_pairs occs ↔
        (k, m) ∈ same_day_pairs occs ∧ str_lt k m = true) ∧
    (∀ k m : String, (k, m) ∈ same_day_pairs occs →
        a.x k = true → a.x m = true →
        (a.y (k, m) = true ∧ a.y (m, k) = false) ∨
          (a.y (k, m) = false ∧ a.y (m, k) = true)) ∧
    (∀ k m : String, (k, m) ∈ same_day_pairs occs →
        ¬ (a.y (k, m) = true ∧ a.y (m, k) = true)) := by
  refine ⟨?_, ?_, ?_, ?_⟩
  · intro k m h
    exact same_day_pairs_symm h
  · intro k m
    exact mem_canonical_pairs
  · intro k m h hxk hxm
    exact y_exactly_one hs h hxk hxm
  · intro k m h
    exact y_not_both hs h

/-- Witness for C8 at a concrete two-occurrence catalogue. -/
theorem ordering_direction_discipline_witness :
    (ex_a.y ("A", "B") = true ∧ ex_a.y ("B", "A") = false) ∨
      (ex_a.y ("A", "B") = false ∧ ex_a.y ("B", "A") = true) :=
  (ordering_direction_discipline ex_occs ex_td 60 ex_a (by decide)).2.2.1
    "A" "B" (by decide) (by decide) (by decide)

/-- C9: Travel lookups default to 0 for absent location pairs, use the stored
value for present directed pairs, and the buffer parameter defaults to 60
minutes. -/
theorem travel_defaults
    (occs : Occurrences) (td : TravelDistances) (k m : String) :
    (td.lookup ((occOf occs k).loc, (occOf occs m).loc) = none →
        travel_time occs td k m = 0) ∧
    (∀ v : Int, td.lookup ((occOf occs k).loc, (occOf occs m).loc) = some v →
        travel_time occs td k m = v) ∧
    default_buffer_minutes = 60 := by
  refine ⟨?_, ?_, rfl⟩
  · intro h
    unfold travel_time
    rw [h]
    rfl
  · intro v h
    unfold travel_time
    rw [h]
    rfl

/-- Witness for C9: a present entry is used as given, an absent pair gives 0. -/
theorem travel_defaults_witness :
    travel_time ex_occs ex_td "A" "B" = 25 ∧ travel_time ex_occs [] "A" "B" = 0 :=
  ⟨(travel_defaults ex_occs ex_td "A" "B").2.1 25 (by decide),
   (travel_defaults ex_occs [] "A" "B").1 (by decide)⟩

/-- C10: In every result of optimize, a day appears in the schedule exactly
when some chosen occurrence falls on it; each per-day list is non-empty and
contains exactly the chosen occurrences of that day. -/
theorem schedule_days_exactly_chosen
    (occs : Occurrences) (td : TravelDistances) (buf : Int) (a : Assignment)
    (st : SolverStatus) :
    (∀ q ∈ (optimize occs td buf a st).schedule, q.2 ≠ [] ∧
        ∀ k : String, (k ∈ q.2 ↔
          k ∈ (optimize occs td buf a st).chosen_occurrences ∧
            (occOf occs k).day = q.1)) ∧
    (∀ d : Int, (∃ l, (d, l) ∈ (optimize occs td buf a st).schedule) ↔
        ∃ k ∈ (optimize occs td buf a st).chosen_occurrences,
          (occOf occs k).day = d) := by
  constructor
  · rintro ⟨d, l⟩ hq
    have hm : (d, l) ∈ schedule occs a := hq
    obtain ⟨hd, hne, rfl⟩ := mem_schedule.mp hm
    refine ⟨hne, ?_⟩
    intro k
    show k ∈ ordered occs a d ↔ k ∈ chosen occs a ∧ (occOf occs k).day = d
    rw [mem_ordered, mem_todays, mem_chosen]
    constructor
    · rintro ⟨h1, h2, h3⟩
      exact ⟨⟨h1, h2⟩, h3⟩
    · rintro ⟨⟨h1, h2⟩, h3⟩
      exact ⟨h1, h2, h3⟩
  · intro d
    constructor
    · rintro ⟨l, hl⟩
      have hm : (d, l) ∈ schedule occs a := hl
      obtain ⟨hd, hne, rfl⟩ := mem_schedule.mp hm
      obtain ⟨k, hk⟩ := List.exists_mem_of_ne_nil _ hne
      have hkt := mem_todays.mp (mem_ordered.mp hk)
      exact ⟨k, mem_chosen.mpr ⟨hkt.1, hkt.2.1⟩, hkt.2.2⟩
    · rintro ⟨k, hkc, hkd⟩
      have hkc2 := mem_chosen.mp hkc
      have hkt : k ∈ todays occs a d := mem_todays.mpr ⟨hkc2.1, hkc2.2, hkd⟩
      have htne : todays occs a d ≠ [] := List.ne_nil_of_mem hkt
      have hone : ordered occs a d ≠ [] := by
        intro h
        have := (ordered_perm_todays occs a d).length_eq
        rw [h] at this
        exact htne (List.eq_nil_of_length_eq_zero this.symm)
      have hd : d ∈ days occs := by
        rw [← hkd]
        exact day_mem_days hkc2.1
      exact ⟨ordered occs a d, mem_schedule.mpr ⟨hd, hone, rfl⟩⟩

/-- Witness for C10 at a concrete catalogue: day 0 appears in the schedule and
its list is exactly the chosen occurrences of day 0. -/
theorem schedule_days_exactly_chosen_witness :
    "A" ∈ (optimize ex_occs ex_td 60 ex_a SolverStatus.Optimal).chosen_occurrences ∧
      (occOf ex_occs "A").day = 0 :=
  ((schedule_days_exactly_chosen ex_occs ex_td 60 ex_a SolverStatus.Optimal).1
      (0, ["A", "B"]) (by decide)).2 "A" |>.mp (by decide)

/-! ### Big-M relaxation (C4) -/

def c4_occs : Occurrences :=
  [("A", ⟨1, 0, 0, 1439, "X"⟩), ("B", ⟨2, 0, 30, 100, "X"⟩)]

def sel_all : Assignment := ⟨fun _ => true, fun _ => true, fun _ => false⟩

/-- Counterexample to C4: with both occurrences inside day 0 and buffer 60,
the required gap of the pair (A, B) exceeds M = 1440, so the relaxed
constraint with before = 0 is violated — it is not vacuous. -/
theorem bigM_not_vacuous_counterexample :
    ("A", "B") ∈ same_day_pairs c4_occs ∧
    sel_all.y ("A", "B") = false ∧
    bigM < (occOf c4_occs "A").stop + travel_time c4_occs [] "A" "B" + 60
      - (occOf c4_occs "B").start ∧
    ¬ ((occOf c4_occs "B").start ≥
        (occOf c4_occs "A").stop + travel_time c4_occs [] "A" "B" + 60
          - bigM * (1 - bi (sel_all.y ("A", "B")))) := by
  decide

/-- C4 amended: with before = 0 the relaxed time-feasibility constraint of a
pair holds precisely when M bounds the required gap of that pair:
end(k) + travel + buffer − start(m); the fixed M = 24h does not bound it for
all same-day pairs. -/
theorem bigM_relaxed_vacuous_when_bounded
    (occs : Occurrences) (td : TravelDistances) (buf : Int) (a : Assignment)
    (p : String × String) (h0 : a.y p = false)
    (hM : (occOf occs p.1).stop + travel_time occs td p.1 p.2 + buf
        - (occOf occs p.2).start ≤ bigM) :
    (occOf occs p.2).start ≥
      (occOf occs p.1).stop + travel_time occs td p.1 p.2 + buf
        - bigM * (1 - bi (a.y p)) := by
  rw [h0, bi_false]
  have h1 : bigM * (1 - 0) = bigM := by ring
  rw [h1]
  omega

/-- Witness for the amended C4 at a concrete in-bounds pair. -/
theorem bigM_relaxed_vacuous_when_bounded_witness :
    (occOf ex_occs "A").start ≥
      (occOf ex_occs "B").stop + travel_time ex_occs ex_td "B" "A" + 60
        - bigM * (1 - bi (ex_a.y ("B", "A"))) :=
  bigM_relaxed_vacuous_when_bounded ex_occs ex_td 60 ex_a ("B", "A")
    (by decide) (by decide)

/-! ### Status and schedule coupling (C6) -/

def c6_occs : Occurrences := [("A", ⟨1, 0, 100, 200, "X"⟩)]

def zero_a : Assignment := ⟨fun _ => false, fun _ => false, fun _ => false⟩

/-- Counterexample to C6: the extraction runs on the raw assignment whatever
the status, so a non-Optimal status can come with a non-empty schedule. -/
theorem nonoptimal_nonempty_schedule_counterexample :
    (optimize c6_occs [] 60 sel_all SolverStatus.Infeasible).status ≠
      SolverStatus.Optimal ∧
    (optimize c6_occs [] 60 sel_all SolverStatus.Infeasible).schedule ≠ [] := by
  decide

/-- C6 amended: optimize always returns the engine status unchanged; the
schedule is computed from the assignment alone (independent of the status) and
is empty whenever the assignment selects nothing. -/
theorem optimize_status_and_schedule
    (occs : Occurrences) (td : TravelDistances) (buf : Int) (a : Assignment)
    (st : SolverStatus) :
    (optimize occs td buf a st).status = st ∧
    (optimize occs td buf a st).schedule =
      (optimize occs td buf a SolverStatus.Optimal).schedule ∧
    ((∀ k, a.x k = false) → (optimize occs td buf a st).schedule = []) := by
  refine ⟨rfl, rfl, ?_⟩
  intro hx
  show schedule occs a = []
  unfold schedule
  rw [List.filterMap_eq_nil_iff]
  intro d _
  have ht : todays occs a d = [] := by
    unfold todays chosen
    have hk : (keyList occs).filter (fun k => a.x k) = [] :=
      List.filter_eq_nil_iff.mpr (fun k _ => by simp [hx k])
    rw [hk]
    rfl
  have ho : ordered occs a d = [] := by
    unfold ordered
    rw [ht]
    rfl
  rw [ho]
  rfl

/-- Witness for the amended C6: with an all-zero assignment the schedule is
empty at a NotSolved status. -/
theorem optimize_status_and_schedule_witness :
    (optimize ex_occs ex_td 60 zero_a SolverStatus.NotSolved).schedule = [] :=
  (optimize_status_and_schedule ex_occs ex_td 60 zero_a
    SolverStatus.NotSolved).2.2 (fun _ => rfl)

/-! ### No fail-fast validation (C5) -/

def c5_occs : Occurrences := [("A", ⟨1, 0, 100, 50, "X"⟩)]

/-- C5: the code performs no input validation.  On a catalogue whose only
occurrence has start >= end, optimize still builds the model, consults the
engine and returns a normal status-bearing result; the returned data depends
on the engine output, so the engine is invoked rather than a validation error
being raised beforehand. -/
theorem no_fail_fast_on_malformed :
    (occOf c5_occs "A").stop ≤ (occOf c5_occs "A").start ∧
    optimize c5_occs [] 60 sel_all SolverStatus.Optimal =
      ⟨[(0, ["A"])], 1, ["A"], SolverStatus.Optimal⟩ ∧
    optimize c5_occs [] 60 zero_a SolverStatus.Optimal ≠
      optimize c5_occs [] 60 sel_all SolverStatus.Optimal := by
  decide

/-! ### Order-extraction consistency (C7) -/

/-- The consistency property claimed for the extracted order: whenever an
ordering variable of a same-day pair is active, the first component never
appears after the second in a per-day schedule list. -/
def consistent_schedule (occs : Occurrences) (a : Assignment) : Prop :=
  ∀ p ∈ same_day_pairs occs, a.y p = true →
    ∀ q ∈ schedule occs a, ∀ (i j : Fin q.2.length),
      q.2.get i = p.1 → q.2.get j = p.2 → i < j

instance (occs : Occurrences) (a : Assignment) :
    Decidable (consistent_schedule occs a) := by
  unfold consistent_schedule
  infer_instance

def both_dir_a : Assignment := ⟨fun _ => true, fun _ => true, fun _ => true⟩

/-- Counterexample to C7: for a raw assignment that activates both directions
of a pair (nothing in the claim restricts the assignment), the extracted order
cannot be consistent with every resolved before relation. -/
theorem extraction_consistency_counterexample :
    both_dir_a.y ("B", "A") = true ∧
    schedule ex_occs both_dir_a = [(0, ["A", "B"])] ∧
    ¬ consistent_schedule ex_occs both_dir_a := by
  decide

/-- C7 amended: the per-day lists are always permutations of the chosen
occurrences of the day, and for assignments satisfying the model constraints on
well-formed data with unique keys they are consistent with every resolved
before relation. -/
theorem extraction_perm_and_consistent
    (occs : Occurrences) (td : TravelDistances) (buf : Int) (a : Assignment)
    (hnd : keys_nodup occs) (hwf : well_formed occs td buf)
    (hs : satisfies_constraints occs td buf a) :
    (∀ q ∈ schedule occs a, List.Perm q.2 (todays occs a q.1)) ∧
      consistent_schedule occs a := by
  constructor
  · rintro ⟨d, l⟩ hq
    obtain ⟨-, -, rfl⟩ := mem_schedule.mp hq
    exact ordered_perm_todays occs a d
  · rintro ⟨k, m⟩ hp hy q hq i j hgi hgj
    obtain ⟨d, l⟩ := q
    obtain ⟨-, -, hl⟩ := mem_schedule.mp hq
    subst hl
    rcases lt_trichotomy i j with hij | hij | hij
    · exact hij
    · exfalso
      apply (mem_same_day_pairs.mp hp).2.2.2
      have hgg : (d, ordered occs a d).2.get i = (d, ordered occs a d).2.get j := by
        rw [hij]
      rw [hgi, hgj] at hgg
      exact hgg
    · exfalso
      obtain ⟨-, hy2⟩ := ordered_pairwise_y hnd hwf hs d j i hij
      rw [hgj, hgi] at hy2
      exact y_not_both hs hp ⟨hy, hy2⟩

/-- Witness for the amended C7 at a concrete constraint-satisfying
assignment. -/
theorem extraction_perm_and_consistent_witness :
    consistent_schedule ex_occs ex_a :=
  (extraction_perm_and_consistent ex_occs ex_td 60 ex_a (by decide) (by decide)
    (by decide)).2

/-! ### days_used versus schedule keys (C3) -/

theorem days_nodup (occs : Occurrences) : (days occs).Nodup :=
  sortedVals_nodup _

theorem sum_map_ite_eq_countP {α : Type} (l : List α) (p : α → Bool) :
    (l.map (fun x => if p x then (1 : Nat) else 0)).sum = l.countP p := by
  induction l with
  | nil => rfl
  | cons a t ih =>
    rw [List.map_cons, List.sum_cons, ih, List.countP_cons]
    cases hpa : p a <;> simp [hpa, Nat.add_comm]

theorem days_used_eq_countP (occs : Occurrences) (a : Assignment) :
    days_used occs a = (days occs).countP (fun d => a.u d) :=
  sum_map_ite_eq_countP _ _

theorem schedule_keys (occs : Occurrences) (a : Assignment) :
    (schedule occs a).map Prod.fst =
      (days occs).filter (fun d => !(ordered occs a d).isEmpty) := by
  show ((days occs).filterMap (fun d =>
      if (ordered occs a d).isEmpty then none
      else some (d, ordered occs a d))).map Prod.fst =
    (days occs).filter (fun d => !(ordered occs a d).isEmpty)
  induction days occs with
  | nil => rfl
  | cons e t ih =>
    rw [List.filterMap_cons, List.filter_cons]
    by_cases he : (ordered occs a e).isEmpty
    · rw [if_pos he, ih]
      have hb : (!(ordered occs a e).isEmpty) = false := by rw [he]; rfl
      rw [hb]
      simp
    · have he2 : (ordered occs a e).isEmpty = false := Bool.not_eq_true _ ▸ he
      rw [if_neg he, List.map_cons, ih]
      have hb : (!(ordered occs a e).isEmpty) = true := by rw [he2]; rfl
      rw [hb]
      simp

theorem schedule_keys_nodup (occs : Occurrences) (a : Assignment) :
    ((schedule occs a).map Prod.fst).Nodup := by
  rw [schedule_keys]
  exact (days_nodup occs).filter _

theorem countP_mask_sub {l : List Int} (hnd : l.Nodup) {d : Int} (hd : d ∈ l)
    (u : Int → Bool) (hu : u d = true) :
    l.countP (fun e => if e = d then false else u e) + 1 =
      l.countP (fun e => u e) := by
  induction l with
  | nil => cases hd
  | cons a t ih =>
    rw [List.countP_cons, List.countP_cons]
    rcases List.mem_cons.mp hd with rfl | hdt
    · have hdt : d ∉ t := (List.nodup_cons.mp hnd).1
      have ht : t.countP (fun e => if e = d then false else u e) =
          t.countP (fun e => u e) := by
        apply List.countP_congr
        intro e he
        have hed : e ≠ d := fun h => hdt (h ▸ he)
        simp [hed]
      rw [ht]
      simp [hu]
    · have had : a ≠ d := by
        rintro rfl
        exact (List.nodup_cons.mp hnd).1 hdt
      have := ih (List.nodup_cons.mp hnd).2 hdt
      have hha : ((if (if a = d then false else u a) = true then 1 else 0) : Nat) =
          if u a = true then 1 else 0 := by
        simp [had]
      omega

theorem objective_mask (occs : Occurrences) (td : TravelDistances)
    (a : Assignment) {d : Int} (hd : d ∈ days occs) (hu : a.u d = true) :
    objective occs td ⟨a.x, fun e => if e = d then false else a.u e, a.y⟩
        + 1000000 = objective occs td a := by
  unfold objective
  dsimp only
  rw [sum_map_bi (days occs) (fun e => if e = d then false else a.u e),
    sum_map_bi (days occs) (fun e => a.u e)]
  have hmask := countP_mask_sub (days_nodup occs) hd a.u hu
  have hcast : ((days occs).countP (fun e => if e = d then false else a.u e) : Int)
      + 1 = ((days occs).countP (fun e => a.u e) : Int) := by
    exact_mod_cast hmask
  omega

/-- C3 counterexample data: the engine reports non-Optimal and leaves a day
variable set although nothing is selected. -/
def c3_a : Assignment := ⟨fun _ => false, fun _ => true, fun _ => false⟩

/-- Counterexample to C3: a returned result (status Infeasible, on which the
engine contract places no constraint) whose days_used is 1 while the schedule
has no keys. -/
theorem days_used_mismatch_counterexample :
    (optimize c6_occs [] 60 c3_a SolverStatus.Infeasible).days_used = 1 ∧
    (((optimize c6_occs [] 60 c3_a SolverStatus.Infeasible).schedule.map
        Prod.fst).dedup).length = 0 := by
  decide

/-- C3 amended: for an Optimal result whose assignment both satisfies the
constraints and minimises the objective (what the Solving Engine guarantees
when it reports Optimal), days_used equals the number of distinct days
appearing as schedule keys. -/
theorem days_used_eq_schedule_days
    (occs : Occurrences) (td : TravelDistances) (buf : Int) (a : Assignment)
    (hs : satisfies_constraints occs td buf a)
    (hmin : ∀ b : Assignment, satisfies_constraints occs td buf b →
        objective occs td a ≤ objective occs td b) :
    (optimize occs td buf a SolverStatus.Optimal).days_used =
      (((optimize occs td buf a SolverStatus.Optimal).schedule.map
          Prod.fst).dedup).length := by
  show days_used occs a = ((schedule occs a).map Prod.fst).dedup.length
  rw [List.dedup_eq_self.mpr (schedule_keys_nodup occs a), schedule_keys,
    days_used_eq_countP, ← List.countP_eq_length_filter]
  apply List.countP_congr
  intro d hd
  constructor
  · intro hu
    by_contra hne
    have hne2 : (ordered occs a d).isEmpty = true := by
      cases hie : (ordered occs a d).isEmpty
      · rw [hie] at hne
        exact absurd rfl hne
      · rfl
    have htod : todays occs a d = [] := by
      have hlen := (ordered_perm_todays occs a d).length_eq
      rw [List.isEmpty_iff] at hne2
      rw [hne2] at hlen
      exact List.eq_nil_of_length_eq_zero hlen.symm
    set b : Assignment := ⟨a.x, fun e => if e = d then false else a.u e, a.y⟩ with hb
    have hsb : satisfies_constraints occs td buf b := by
      refine ⟨hs.1, ?_, hs.2.2.1, hs.2.2.2.1, hs.2.2.2.2⟩
      intro d' hd' k hk hday
      by_cases hdd : d' = d
      · subst hdd
        have hbu : b.u d' = false := by
          show (if d' = d' then false else a.u d') = false
          simp
        rw [hbu]
        have hxk : a.x k = false := by
          cases hxe : a.x k
          · rfl
          · exact absurd (mem_todays.mpr ⟨hk, hxe, hday⟩) (by rw [htod]; simp)
        show bi (a.x k) ≤ bi false
        rw [hxk]
      · have hbu : b.u d' = a.u d' := by
          show (if d' = d then false else a.u d') = a.u d'
          simp [hdd]
        rw [hbu]
        exact hs.2.1 d' hd' k hk hday
    have hle := hmin b hsb
    have heq := objective_mask occs td a hd hu
    rw [← hb] at heq
    omega
  · intro hne
    have hne2 : ordered occs a d ≠ [] := by
      intro h
      rw [h] at hne
      exact absurd hne (by simp)
    obtain ⟨k, hk⟩ := List.exists_mem_of_ne_nil _ hne2
    have hkt := mem_todays.mp (mem_ordered.mp hk)
    have := x_imp_u hs hkt.1 hkt.2.1
    rw [hkt.2.2] at this
    exact this

theorem single_event_min :
    ∀ b : Assignment, satisfies_constraints c6_occs [] 60 b →
      objective c6_occs [] sel_all ≤ objective c6_occs [] b := by
  intro b hb
  have hx : b.x "A" = true := by
    have h := hb.1 1 (by decide)
    have h2 : bi (b.x "A") + 0 = 1 := h
    cases hbx : b.x "A"
    · rw [hbx] at h2
      simp [bi] at h2
    · rfl
  have hu : b.u 0 = true := by
    have h := hb.2.1 0 (by decide) "A" (by decide) (by decide)
    exact bi_eq_one_of_le hx h
  have hobj : objective c6_occs [] b = 1000000 := by
    show 1000000 * (bi (b.u 0) + 0) + 1000 * 0 + 1 * 0 = 1000000
    rw [hu]
    rfl
  have hobj2 : objective c6_occs [] sel_all = 1000000 := by decide
  rw [hobj, hobj2]

/-- Witness for the amended C3 at a concrete single-occurrence catalogue where
the all-selecting assignment is provably objective-minimal. -/
theorem days_used_eq_schedule_days_witness :
    (optimize c6_occs [] 60 sel_all SolverStatus.Optimal).days_used =
      (((optimize c6_occs [] 60 sel_all SolverStatus.Optimal).schedule.map
          Prod.fst).dedup).length :=
  days_used_eq_schedule_days c6_occs [] 60 sel_all (by decide) single_event_min
